import Mathlib

/-!
Verification of the Ciabatta repository: the vector utility library
(src/vector.py) embedded over the real numbers, and the neighbour-finding
engine (the numerics module, specified in the design document) modelled
over the rationals.

Arrays are embedded as lists of rows, the last axis of a numpy array being
a row. Fallible numpy operations (shape checks that raise) return Option.
Randomness is made explicit: each function that consumes values from the
numpy global random stream takes the drawn values as an extra argument.
-/

/-- A batch of vectors: a list of rows, each row listing the coordinates
along the last axis of the numpy array. -/
abbrev Arr := List (List ℝ)

/-- Total number of elements of a batch (numpy v.size for a 2-d array). -/
def arrSize (v : Arr) : ℕ := (v.map List.length).sum

/-- Embeds vector_mag_sq on one row: np.square(v).sum(axis=-1). -/
def vector_mag_sq (v : List ℝ) : ℝ := (v.map (fun x => x ^ 2)).sum

/-- Embeds vector_mag on one row: np.sqrt(vector_mag_sq(v)). -/
noncomputable def vector_mag (v : List ℝ) : ℝ := Real.sqrt (vector_mag_sq v)

/-- Embeds vector_unit_nullnull: an array with no elements is returned as
is; otherwise rows of positive magnitude are divided by their magnitude
and the remaining rows are copied unchanged. -/
noncomputable def vector_unit_nullnull (v : Arr) : Arr :=
  if arrSize v = 0 then v
  else v.map (fun row =>
    if 0 < vector_mag row then row.map (fun x => x / vector_mag row) else row)

/-- Elementwise dot product of two rows: np.sum(a * b, -1). -/
noncomputable def vdot (a b : List ℝ) : ℝ := (List.zipWith (fun x y => x * y) a b).sum

/-- Embeds vector_angle on one pair of rows: arccos of the normalised dot
product when that cosine has absolute value at most one, otherwise zero
for a positive dot product and pi for a nonpositive one. -/
noncomputable def vector_angle (a b : List ℝ) : ℝ :=
  if |vdot a b / (vector_mag a * vector_mag b)| ≤ 1 then
    Real.arccos (vdot a b / (vector_mag a * vector_mag b))
  else if 0 < vdot a b then 0
  else Real.pi

/-- Apply a row operation across a whole array; None when any row makes
the operation raise (for a numpy array all rows share one shape, so one
bad row means the shape check on the whole array raises). -/
def mapRows (f : List ℝ → Option (List ℝ)) : Arr → Option Arr
  | [] => some []
  | row :: rest =>
    (f row).bind (fun r => (mapRows f rest).map (fun rs => r :: rs))

/-- Embeds vector_perp on one row: a row (x, y) becomes (y, -x); any other
last-axis length raises. -/
def vector_perp_row : List ℝ → Option (List ℝ)
  | [x, y] => some [y, -x]
  | _ => none

/-- Embeds vector_perp: defined only for arrays whose last axis has
length two. -/
def vector_perp (v : Arr) : Option Arr := mapRows vector_perp_row v

/-- Embeds np.arctan2(y, x): the argument of the complex number x + y i,
which lies in the interval (-pi, pi]. -/
noncomputable def atan2 (y x : ℝ) : ℝ := Complex.arg ⟨x, y⟩

/-- Embeds polar_to_cart on one row, by the last-axis length: dimension
one copies, dimension two is (r cos t, r sin t), dimension three uses the
(radius, inclination, azimuth) convention; other lengths raise. -/
noncomputable def polar_to_cart_row : List ℝ → Option (List ℝ)
  | [x] => some [x]
  | [r, t] => some [r * Real.cos t, r * Real.sin t]
  | [r, i, a] => some [r * Real.sin i * Real.cos a,
                       r * Real.sin i * Real.sin a,
                       r * Real.cos i]
  | _ => none

/-- Embeds polar_to_cart on a whole array. -/
noncomputable def polar_to_cart (arr : Arr) : Option Arr := mapRows polar_to_cart_row arr

/-- Embeds cart_to_polar on one row: dimension one copies, dimension two
is (magnitude, arctan2 y x), dimension three is (magnitude, arccos (z /
magnitude), arctan2 y x); other lengths raise. -/
noncomputable def cart_to_polar_row : List ℝ → Option (List ℝ)
  | [x] => some [x]
  | [x, y] => some [vector_mag [x, y], atan2 y x]
  | [x, y, z] => some [vector_mag [x, y, z],
                       Real.arccos (z / vector_mag [x, y, z]),
                       atan2 y x]
  | _ => none

/-- Embeds cart_to_polar on a whole array. -/
noncomputable def cart_to_polar (arr : Arr) : Option Arr := mapRows cart_to_polar_row arr

/-- Embeds sphere_pick_polar. One random draw per sample: the first
component models np.random.randint(2) (used in dimension one), the two
real components model the np.random.uniform draws (the uniform(-pi, pi)
angle in dimension two; u and v from uniform(0, 1) in dimension three).
An invalid dimension raises. -/
noncomputable def sphere_pick_polar (d : ℕ) (draws : List (ℕ × ℝ × ℝ)) : Option Arr :=
  if d = 1 then some (draws.map (fun t => [2 * (t.1 : ℝ) - 1]))
  else if d = 2 then some (draws.map (fun t => [1, t.2.1]))
  else if d = 3 then some (draws.map (fun t =>
    [1, Real.arccos (2 * t.2.2 - 1), 2 * Real.pi * t.2.1]))
  else none

/-- Embeds sphere_pick: polar_to_cart of sphere_pick_polar. -/
noncomputable def sphere_pick (d : ℕ) (draws : List (ℕ × ℝ × ℝ)) : Option Arr :=
  (sphere_pick_polar d draws).bind polar_to_cart

/-- Embeds disk_pick_polar. One draw per sample: the first component is
the uniform [0, 1) radius-squared draw, the second the uniform(0, 2 pi)
angle draw. Each row is (sqrt of the first draw, the angle draw). -/
noncomputable def disk_pick_polar (draws : List (ℝ × ℝ)) : Arr :=
  draws.map (fun t => [Real.sqrt t.1, t.2])

/-- Embeds disk_pick: polar_to_cart of disk_pick_polar. -/
noncomputable def disk_pick (draws : List (ℝ × ℝ)) : Option Arr :=
  polar_to_cart (disk_pick_polar draws)

/-- Normalise rows, replacing each null row with the next replacement row
(vector_unit_nullrand assigns sphere_pick samples to the null rows in
order, and divides the rows of positive magnitude by their magnitude). -/
noncomputable def normRows : List (List ℝ) → List (List ℝ) → List (List ℝ)
  | _, [] => []
  | reps, row :: rest =>
    if vector_mag row = 0 then reps.headD row :: normRows reps.tail rest
    else if 0 < vector_mag row then
      (row.map (fun x => x / vector_mag row)) :: normRows reps rest
    else row :: normRows reps rest

/-- Embeds vector_unit_nullrand: an array with no elements is returned as
is; otherwise null rows are replaced by unit vectors picked on the sphere
of dimension v.shape[-1] from the given random draws, and the other rows
are normalised. -/
noncomputable def vector_unit_nullrand (v : Arr) (draws : List (ℕ × ℝ × ℝ)) : Option Arr :=
  if arrSize v = 0 then some v
  else (sphere_pick (v.headD []).length draws).map (fun reps => normRows reps v)

/-!
The neighbour-finding engine. The numerics module itself is not under
src (only its benchmark and consistency test is), so the definitions
below are modelled from the specification document, sections 3 and 4.
Coordinates are rationals: the spec treats coordinates as real-valued
inputs and all the arithmetic involved is exact.
-/

/-- Modelled from the spec: the numerics Periodic Distance Rule
(section 4.1), per-axis: the raw difference with a single minimum-image
correction of plus or minus L. -/
def minImage (L d : ℚ) : ℚ :=
  if L / 2 < d then d - L else if d < -(L / 2) then d + L else d

/-- Modelled from the spec: the numerics squared periodic distance
(section 4.1), the sum of the squared corrected per-axis differences. -/
def sqDist (L : ℚ) (p q : ℚ × ℚ) : ℚ :=
  minImage L (q.1 - p.1) ^ 2 + minImage L (q.2 - p.2) ^ 2

/-- Modelled from the spec: the numerics Direct Strategy, interacts_direct
(section 4.2): for each particle i, every j distinct from i whose squared
periodic distance to i is at most R squared, in index order (the spec
makes the order inside one neighbour collection insignificant). -/
def interacts_direct (r : List (ℚ × ℚ)) (L R : ℚ) : List (List ℕ) :=
  (List.range r.length).map (fun i =>
    (List.range r.length).filter (fun j =>
      decide (j ≠ i ∧
        sqDist L (r.getD i (0, 0)) (r.getD j (0, 0)) ≤ R ^ 2)))

/-- Modelled from the spec: the numerics cell count per side (section
4.3), the floor of L / R clamped to at least one. -/
def numCells (L R : ℚ) : ℕ := max 1 (Int.toNat ⌊L / R⌋)

/-- Modelled from the spec: wrap a coordinate into the range [0, L)
(section 4.3). -/
def wrapQ (L x : ℚ) : ℚ := x - L * (⌊x / L⌋ : ℤ)

/-- Modelled from the spec: the cell index of one coordinate (section
4.3): wrap into [0, L), divide by the cell side, floor, clamp to
[0, C - 1]. -/
def cellIdx (L R x : ℚ) : ℕ :=
  min (Int.toNat ⌊wrapQ L x / (L / (numCells L R : ℚ))⌋) (numCells L R - 1)

/-- Modelled from the spec: the (row, column) cell of a particle. -/
def cellOf (L R : ℚ) (p : ℚ × ℚ) : ℕ × ℕ := (cellIdx L R p.1, cellIdx L R p.2)

/-- Modelled from the spec: periodic wraparound of a cell coordinate,
modulo the cell count (sections 3 and 4.4). -/
def wrapCell (C : ℕ) (z : ℤ) : ℕ := Int.toNat (z % (C : ℤ))

/-- The nine offsets of a 3 by 3 block of cells. -/
def cellOffsets : List (ℤ × ℤ) :=
  [(-1, -1), (-1, 0), (-1, 1), (0, -1), (0, 0), (0, 1), (1, -1), (1, 0), (1, 1)]

/-- Modelled from the spec: the 3 by 3 block of cells centred on a cell,
with periodic wraparound of the indices modulo C, de-duplicated (the spec
requires the de-duplication whenever C is at most two; it is harmless
otherwise). -/
def blockCells (C : ℕ) (c : ℕ × ℕ) : List (ℕ × ℕ) :=
  (cellOffsets.map (fun o =>
    (wrapCell C ((c.1 : ℤ) + o.1), wrapCell C ((c.2 : ℤ) + o.2)))).dedup

/-- Modelled from the spec: the occupant list of one cell of the Cell
List Builder grid (section 4.3), in particle-index order. -/
def cellList (r : List (ℚ × ℚ)) (L R : ℚ) (c : ℕ × ℕ) : List ℕ :=
  (List.range r.length).filter (fun j => decide (cellOf L R (r.getD j (0, 0)) = c))

/-- Modelled from the spec: the numerics Cell List Strategy without
checks, interacts_cl_nochecks (section 4.4): for each particle, scan the
occupants of the 3 by 3 block of cells around its cell and keep the
distinct particles within the interaction radius. -/
def interacts_cl_nochecks (r : List (ℚ × ℚ)) (L R : ℚ) : List (List ℕ) :=
  (List.range r.length).map (fun i =>
    (blockCells (numCells L R) (cellOf L R (r.getD i (0, 0)))).flatMap (fun c =>
      (cellList r L R c).filter (fun j =>
        decide (j ≠ i ∧
          sqDist L (r.getD i (0, 0)) (r.getD j (0, 0)) ≤ R ^ 2))))

/-- Modelled from the spec: the numerics Cell List Strategy with checks,
interacts_cl_checks (sections 4.4 and 7): validates L and R at entry and
that every computed cell index lies in [0, C - 1] before array access;
none models the InvalidParameterError or InternalConsistencyError abort,
and otherwise the shared cell scan runs. -/
def interacts_cl_checks (r : List (ℚ × ℚ)) (L R : ℚ) : Option (List (List ℕ)) :=
  if 0 < L ∧ 0 < R ∧ ∀ p ∈ r,
      (cellOf L R p).1 < numCells L R ∧ (cellOf L R p).2 < numCells L R
  then some (interacts_cl_nochecks r L R)
  else none

/-- Sort the neighbour collection of each particle, the way the
consistency test compares the three strategies. -/
def sortEach (l : List (List ℕ)) : List (List ℕ) :=
  l.map (List.insertionSort (fun a b => a ≤ b))

/-!
Basic facts about magnitudes.
-/

lemma vector_mag_sq_nonneg (v : List ℝ) : 0 ≤ vector_mag_sq v := by
  apply List.sum_nonneg
  intro x hx
  obtain ⟨y, _, rfl⟩ := List.mem_map.mp hx
  positivity

lemma vector_mag_nonneg (v : List ℝ) : 0 ≤ vector_mag v := Real.sqrt_nonneg _

lemma vector_mag_sq_cons (x : ℝ) (l : List ℝ) :
    vector_mag_sq (x :: l) = x ^ 2 + vector_mag_sq l := by
  simp [vector_mag_sq]

lemma vector_mag_sq_eq_zero_iff (v : List ℝ) :
    vector_mag_sq v = 0 ↔ ∀ x ∈ v, x = 0 := by
  induction v with
  | nil => simp [vector_mag_sq]
  | cons x l ih =>
    rw [vector_mag_sq_cons]
    constructor
    · intro h
      have h1 : 0 ≤ x ^ 2 := sq_nonneg x
      have h2 : 0 ≤ vector_mag_sq l := vector_mag_sq_nonneg l
      have hx : x = 0 := by
        have hx2 : x ^ 2 = 0 := by linarith
        exact pow_eq_zero_iff (two_ne_zero) |>.mp hx2
      intro y hy
      rcases List.mem_cons.mp hy with h0 | h0
      · exact h0 ▸ hx
      · exact (ih.mp (by linarith)) y h0
    · intro h
      have hx : x = 0 := h x (List.mem_cons_self x l)
      have hl : vector_mag_sq l = 0 :=
        ih.mpr (fun y hy => h y (List.mem_cons_of_mem x hy))
      rw [hx, hl]
      ring

lemma vector_mag_eq_zero_iff (v : List ℝ) :
    vector_mag v = 0 ↔ ∀ x ∈ v, x = 0 := by
  rw [vector_mag, Real.sqrt_eq_zero (vector_mag_sq_nonneg v)]
  exact vector_mag_sq_eq_zero_iff v

lemma vector_mag_sq_map_div (l : List ℝ) (c : ℝ) :
    vector_mag_sq (l.map (fun x => x / c)) = vector_mag_sq l / c ^ 2 := by
  induction l with
  | nil => simp [vector_mag_sq]
  | cons x t ih =>
    simp only [List.map_cons, vector_mag_sq_cons]
    rw [ih, div_pow, add_div]

lemma vector_mag_normalize (row : List ℝ) (h : vector_mag row ≠ 0) :
    vector_mag (row.map (fun x => x / vector_mag row)) = 1 := by
  have hsq : vector_mag_sq row ≠ 0 := by
    intro h0
    apply h
    rw [vector_mag, h0, Real.sqrt_zero]
  simp only [vector_mag]
  rw [vector_mag_sq_map_div, Real.sq_sqrt (vector_mag_sq_nonneg row),
    div_self hsq, Real.sqrt_one]

/-- C5: vector_mag_sq returns the sum of the squared components along the
last axis, which is nonnegative, and vector_mag returns its square root,
so that vector_mag squared equals vector_mag_sq entrywise. -/
theorem vector_mag_sq_mag_spec (v : List ℝ) :
    vector_mag_sq v = (v.map (fun x => x ^ 2)).sum ∧
    0 ≤ vector_mag_sq v ∧
    vector_mag v = Real.sqrt (vector_mag_sq v) ∧
    vector_mag v ^ 2 = vector_mag_sq v :=
  ⟨rfl, vector_mag_sq_nonneg v, rfl, Real.sq_sqrt (vector_mag_sq_nonneg v)⟩

/-- C3: vector_unit_nullnull keeps the batch size, maps every row of
nonzero magnitude to that row divided by its magnitude (a vector of
magnitude one), and returns every row of zero magnitude (the zero vector)
unchanged. -/
theorem vector_unit_nullnull_spec (v : Arr) (i : ℕ) (hi : i < v.length) :
    (vector_unit_nullnull v).length = v.length ∧
    (vector_mag (v.getD i []) ≠ 0 →
       (vector_unit_nullnull v).getD i [] =
         (v.getD i []).map (fun x => x / vector_mag (v.getD i [])) ∧
       vector_mag ((vector_unit_nullnull v).getD i []) = 1) ∧
    (vector_mag (v.getD i []) = 0 →
       (vector_unit_nullnull v).getD i [] = v.getD i [] ∧
       ∀ x ∈ v.getD i [], x = 0) := by
  unfold vector_unit_nullnull
  by_cases hz : arrSize v = 0
  · rw [if_pos hz]
    have hrow : v.getD i [] = [] := by
      have hmem : v.getD i [] ∈ v := by
        rw [List.getD_eq_getElem v [] hi]
        exact List.getElem_mem hi
      have hlen : (v.getD i []).length = 0 := by
        have := (List.sum_eq_zero_iff).mp hz
        exact this _ (List.mem_map.mpr ⟨v.getD i [], hmem, rfl⟩)
      exact List.length_eq_zero.mp hlen
    have hmag : vector_mag (v.getD i []) = 0 := by
      rw [hrow, vector_mag]
      simp [vector_mag_sq]
    refine ⟨rfl, fun hne => absurd hmag hne, fun _ => ⟨rfl, ?_⟩⟩
    rw [hrow]
    intro x hx
    exact absurd hx (List.not_mem_nil x)
  · rw [if_neg hz]
    have hmap : (v.map (fun row =>
        if 0 < vector_mag row then row.map (fun x => x / vector_mag row)
        else row)).getD i [] =
        (if 0 < vector_mag (v.getD i []) then
          (v.getD i []).map (fun x => x / vector_mag (v.getD i []))
         else v.getD i []) := by
      rw [List.getD_eq_getElem _ [] (by simpa using hi), List.getElem_map,
        List.getD_eq_getElem v [] hi]
    refine ⟨by simp, fun hne => ?_, fun hzero => ?_⟩
    · have hpos : 0 < vector_mag (v.getD i []) :=
        lt_of_le_of_ne (vector_mag_nonneg _) (Ne.symm hne)
      rw [hmap, if_pos hpos]
      exact ⟨rfl, vector_mag_normalize _ hne⟩
    · have hnpos : ¬ 0 < vector_mag (v.getD i []) := by
        rw [hzero]
        exact lt_irrefl 0
      rw [hmap, if_neg hnpos]
      exact ⟨rfl, (vector_mag_eq_zero_iff _).mp hzero⟩

/-- Witness for C3 at the concrete batch [[3, 4]]. -/
theorem vector_unit_nullnull_spec_witness :
    (0 : ℕ) < ([[(3 : ℝ), 4]] : Arr).length ∧
    ((vector_unit_nullnull [[(3 : ℝ), 4]]).length = ([[(3 : ℝ), 4]] : Arr).length ∧
     (vector_mag (([[(3 : ℝ), 4]] : Arr).getD 0 []) ≠ 0 →
        (vector_unit_nullnull [[(3 : ℝ), 4]]).getD 0 [] =
          (([[(3 : ℝ), 4]] : Arr).getD 0 []).map
            (fun x => x / vector_mag (([[(3 : ℝ), 4]] : Arr).getD 0 [])) ∧
        vector_mag ((vector_unit_nullnull [[(3 : ℝ), 4]]).getD 0 []) = 1) ∧
     (vector_mag (([[(3 : ℝ), 4]] : Arr).getD 0 []) = 0 →
        (vector_unit_nullnull [[(3 : ℝ), 4]]).getD 0 [] =
          ([[(3 : ℝ), 4]] : Arr).getD 0 [] ∧
        ∀ x ∈ ([[(3 : ℝ), 4]] : Arr).getD 0 [], x = 0)) :=
  ⟨by norm_num, vector_unit_nullnull_spec [[(3 : ℝ), 4]] 0 (by norm_num)⟩

/-- C6: for nonzero vectors the angle returned by vector_angle lies in
[0, pi]; it is the arccosine of the normalised dot product when that
cosine lies in [-1, 1], and otherwise 0 for a positive dot product and pi
for a nonpositive one. -/
theorem vector_angle_spec (a b : List ℝ)
    (ha : vector_mag a ≠ 0) (hb : vector_mag b ≠ 0) :
    (0 ≤ vector_angle a b ∧ vector_angle a b ≤ Real.pi) ∧
    (|vdot a b / (vector_mag a * vector_mag b)| ≤ 1 →
       vector_angle a b = Real.arccos (vdot a b / (vector_mag a * vector_mag b))) ∧
    (1 < |vdot a b / (vector_mag a * vector_mag b)| →
       (0 < vdot a b → vector_angle a b = 0) ∧
       (vdot a b ≤ 0 → vector_angle a b = Real.pi)) := by
  unfold vector_angle
  split_ifs with h1 h2
  · exact ⟨⟨Real.arccos_nonneg _, Real.arccos_le_pi _⟩, fun _ => rfl,
      fun hgt => absurd h1 (not_le.mpr hgt)⟩
  · exact ⟨⟨le_refl 0, Real.pi_pos.le⟩, fun hle => absurd hle h1,
      fun _ => ⟨fun _ => rfl, fun hd => absurd h2 (not_lt.mpr hd)⟩⟩
  · exact ⟨⟨Real.pi_pos.le, le_refl _⟩, fun hle => absurd hle h1,
      fun _ => ⟨fun hd => absurd hd h2, fun _ => rfl⟩⟩

/-- Witness for C6 at the concrete pair [1, 0] and [0, 1]. -/
theorem vector_angle_spec_witness :
    vector_mag [(1 : ℝ), 0] ≠ 0 ∧ vector_mag [(0 : ℝ), 1] ≠ 0 ∧
    ((0 ≤ vector_angle [(1 : ℝ), 0] [(0 : ℝ), 1] ∧
      vector_angle [(1 : ℝ), 0] [(0 : ℝ), 1] ≤ Real.pi) ∧
     (|vdot [(1 : ℝ), 0] [(0 : ℝ), 1] /
         (vector_mag [(1 : ℝ), 0] * vector_mag [(0 : ℝ), 1])| ≤ 1 →
        vector_angle [(1 : ℝ), 0] [(0 : ℝ), 1] =
          Real.arccos (vdot [(1 : ℝ), 0] [(0 : ℝ), 1] /
            (vector_mag [(1 : ℝ), 0] * vector_mag [(0 : ℝ), 1]))) ∧
     (1 < |vdot [(1 : ℝ), 0] [(0 : ℝ), 1] /
         (vector_mag [(1 : ℝ), 0] * vector_mag [(0 : ℝ), 1])| →
        (0 < vdot [(1 : ℝ), 0] [(0 : ℝ), 1] →
           vector_angle [(1 : ℝ), 0] [(0 : ℝ), 1] = 0) ∧
        (vdot [(1 : ℝ), 0] [(0 : ℝ), 1] ≤ 0 →
           vector_angle [(1 : ℝ), 0] [(0 : ℝ), 1] = Real.pi))) :=
  ⟨by norm_num [vector_mag, vector_mag_sq, Real.sqrt_one],
   by norm_num [vector_mag, vector_mag_sq, Real.sqrt_one],
   vector_angle_spec [(1 : ℝ), 0] [(0 : ℝ), 1]
     (by norm_num [vector_mag, vector_mag_sq, Real.sqrt_one])
     (by norm_num [vector_mag, vector_mag_sq, Real.sqrt_one])⟩

/-!
Facts about mapRows, the row-wise application of a fallible operation.
-/

lemma mapRows_eq_none_iff (f : List ℝ → Option (List ℝ)) (l : Arr) :
    mapRows f l = none ↔ ∃ row ∈ l, f row = none := by
  induction l with
  | nil => simp [mapRows]
  | cons row rest ih =>
    cases hrow : f row with
    | none => simp [mapRows, hrow]
    | some r => simp [mapRows, hrow, ih]

lemma mapRows_some_of_forall (f : List ℝ → Option (List ℝ)) (P : List ℝ → Prop)
    (l : Arr) (h : ∀ row ∈ l, ∃ o, f row = some o ∧ P o) :
    ∃ out, mapRows f l = some out ∧ out.length = l.length ∧ ∀ o ∈ out, P o := by
  induction l with
  | nil => exact ⟨[], rfl, rfl, by simp⟩
  | cons row rest ih =>
    obtain ⟨o, ho, hPo⟩ := h row (List.mem_cons_self row rest)
    obtain ⟨out, hout, hlen, hP⟩ := ih (fun x hx => h x (List.mem_cons_of_mem row hx))
    refine ⟨o :: out, by simp [mapRows, ho, hout], by simp [hlen], ?_⟩
    intro x hx
    rcases List.mem_cons.mp hx with h0 | h0
    · exact h0 ▸ hPo
    · exact hP x h0

lemma mapRows_eq_map (f : List ℝ → Option (List ℝ)) (g : List ℝ → List ℝ)
    (l : Arr) (h : ∀ row ∈ l, f row = some (g row)) :
    mapRows f l = some (l.map g) := by
  induction l with
  | nil => simp [mapRows]
  | cons row rest ih =>
    have hrow := h row (List.mem_cons_self row rest)
    have hrest := ih (fun x hx => h x (List.mem_cons_of_mem row hx))
    simp [mapRows, hrow, hrest]

lemma mapRows_roundtrip (f g : List ℝ → Option (List ℝ)) (l : Arr)
    (h : ∀ row ∈ l, (f row).bind g = some row) :
    (mapRows f l).bind (mapRows g) = some l := by
  induction l with
  | nil => simp [mapRows]
  | cons row rest ih =>
    have hrow := h row (List.mem_cons_self row rest)
    have hrest := ih (fun x hx => h x (List.mem_cons_of_mem row hx))
    cases hf : f row with
    | none => rw [hf] at hrow; simp at hrow
    | some r =>
      rw [hf] at hrow
      simp only [Option.some_bind] at hrow
      cases hm : mapRows f rest with
      | none => rw [hm] at hrest; simp at hrest
      | some out =>
        rw [hm] at hrest
        simp only [Option.some_bind] at hrest
        simp [mapRows, hf, hm, hrow, hrest]

lemma vector_perp_row_of_length_ne_two (row : List ℝ) (h : row.length ≠ 2) :
    vector_perp_row row = none := by
  rcases row with _ | ⟨x, _ | ⟨y, _ | ⟨z, tail⟩⟩⟩
  · rfl
  · rfl
  · exact absurd rfl h
  · rfl

/-- C9: on an array of rows of length two, vector_perp returns the array
whose row i is (v i 1, - v i 0); each output row is orthogonal to the
matching input row and has the same magnitude. On a nonempty array whose
last-axis length is not two, vector_perp raises. -/
theorem vector_perp_spec (v : Arr) (d : ℕ) (hne : v ≠ [])
    (hdim : ∀ row ∈ v, row.length = d) :
    (d = 2 →
       vector_perp v = some (v.map (fun row => [row.getD 1 0, -(row.getD 0 0)])) ∧
       ∀ row ∈ v, vdot row [row.getD 1 0, -(row.getD 0 0)] = 0 ∧
         vector_mag [row.getD 1 0, -(row.getD 0 0)] = vector_mag row) ∧
    (d ≠ 2 → vector_perp v = none) := by
  constructor
  · rintro rfl
    constructor
    · apply mapRows_eq_map
      intro row hrow
      obtain ⟨x, y, rfl⟩ := List.length_eq_two.mp (hdim row hrow)
      simp [vector_perp_row]
    · intro row hrow
      obtain ⟨x, y, rfl⟩ := List.length_eq_two.mp (hdim row hrow)
      constructor
      · simp [vdot]
        ring
      · simp only [List.getD_cons_succ, List.getD_cons_zero, vector_mag]
        congr 1
        simp [vector_mag_sq]
        ring
  · intro hd
    apply (mapRows_eq_none_iff _ _).mpr
    rcases v with _ | ⟨row, rest⟩
    · exact absurd rfl hne
    · exact ⟨row, List.mem_cons_self row rest,
        vector_perp_row_of_length_ne_two row
          (by rw [hdim row (List.mem_cons_self row rest)]; exact hd)⟩

/-- Witness for C9 at the concrete array [[1, 2]] of last-axis length 2. -/
theorem vector_perp_spec_witness :
    ([[(1 : ℝ), 2]] : Arr) ≠ [] ∧ (∀ row ∈ ([[(1 : ℝ), 2]] : Arr), row.length = 2) ∧
    (((2 : ℕ) = 2 →
       vector_perp [[(1 : ℝ), 2]] =
         some (([[(1 : ℝ), 2]] : Arr).map
           (fun row => [row.getD 1 0, -(row.getD 0 0)])) ∧
       ∀ row ∈ ([[(1 : ℝ), 2]] : Arr),
         vdot row [row.getD 1 0, -(row.getD 0 0)] = 0 ∧
         vector_mag [row.getD 1 0, -(row.getD 0 0)] = vector_mag row) ∧
     ((2 : ℕ) ≠ 2 → vector_perp [[(1 : ℝ), 2]] = none)) :=
  ⟨by simp, by simp,
   vector_perp_spec [[(1 : ℝ), 2]] 2 (by simp) (by simp)⟩

lemma polar_to_cart_row_none (row : List ℝ)
    (h : ¬(row.length = 1 ∨ row.length = 2 ∨ row.length = 3)) :
    polar_to_cart_row row = none := by
  rcases row with _ | ⟨a, _ | ⟨b, _ | ⟨c, _ | ⟨e, tail⟩⟩⟩⟩
  · rfl
  · exact absurd (Or.inl rfl) h
  · exact absurd (Or.inr (Or.inl rfl)) h
  · exact absurd (Or.inr (Or.inr rfl)) h
  · rfl

lemma polar_to_cart_row_some (row : List ℝ)
    (h : row.length = 1 ∨ row.length = 2 ∨ row.length = 3) :
    ∃ o, polar_to_cart_row row = some o ∧ o.length = row.length := by
  rcases h with h | h | h
  · obtain ⟨x, rfl⟩ := List.length_eq_one.mp h
    exact ⟨_, rfl, rfl⟩
  · obtain ⟨x, y, rfl⟩ := List.length_eq_two.mp h
    exact ⟨_, rfl, rfl⟩
  · obtain ⟨x, y, z, rfl⟩ := List.length_eq_three.mp h
    exact ⟨_, rfl, rfl⟩

lemma cart_to_polar_row_none (row : List ℝ)
    (h : ¬(row.length = 1 ∨ row.length = 2 ∨ row.length = 3)) :
    cart_to_polar_row row = none := by
  rcases row with _ | ⟨a, _ | ⟨b, _ | ⟨c, _ | ⟨e, tail⟩⟩⟩⟩
  · rfl
  · exact absurd (Or.inl rfl) h
  · exact absurd (Or.inr (Or.inl rfl)) h
  · exact absurd (Or.inr (Or.inr rfl)) h
  · rfl

lemma cart_to_polar_row_some (row : List ℝ)
    (h : row.length = 1 ∨ row.length = 2 ∨ row.length = 3) :
    ∃ o, cart_to_polar_row row = some o ∧ o.length = row.length := by
  rcases h with h | h | h
  · obtain ⟨x, rfl⟩ := List.length_eq_one.mp h
    exact ⟨_, rfl, rfl⟩
  · obtain ⟨x, y, rfl⟩ := List.length_eq_two.mp h
    exact ⟨_, rfl, rfl⟩
  · obtain ⟨x, y, z, rfl⟩ := List.length_eq_three.mp h
    exact ⟨_, rfl, rfl⟩

/-- C10: each of polar_to_cart, cart_to_polar and sphere_pick_polar raises
exactly when the requested dimension (the last-axis length of the input
array for the conversions, the argument d for sphere_pick_polar) is not 1,
2 or 3; on a valid dimension each returns a fully populated array of the
documented shape. -/
theorem dimension_check_spec (d : ℕ) (arr : Arr) (draws : List (ℕ × ℝ × ℝ))
    (hne : arr ≠ []) (hdim : ∀ row ∈ arr, row.length = d) :
    ((polar_to_cart arr = none ↔ ¬(d = 1 ∨ d = 2 ∨ d = 3)) ∧
     (cart_to_polar arr = none ↔ ¬(d = 1 ∨ d = 2 ∨ d = 3)) ∧
     (sphere_pick_polar d draws = none ↔ ¬(d = 1 ∨ d = 2 ∨ d = 3))) ∧
    ((d = 1 ∨ d = 2 ∨ d = 3) →
      (∃ out, polar_to_cart arr = some out ∧ out.length = arr.length ∧
         ∀ row ∈ out, row.length = d) ∧
      (∃ out, cart_to_polar arr = some out ∧ out.length = arr.length ∧
         ∀ row ∈ out, row.length = d) ∧
      (∃ out, sphere_pick_polar d draws = some out ∧ out.length = draws.length ∧
         ∀ row ∈ out, row.length = d)) := by
  have hvalidP : (d = 1 ∨ d = 2 ∨ d = 3) →
      ∃ out, polar_to_cart arr = some out ∧ out.length = arr.length ∧
        ∀ row ∈ out, row.length = d := by
    intro hd
    apply mapRows_some_of_forall polar_to_cart_row (fun o => o.length = d)
    intro row hrow
    obtain ⟨o, ho, hlen⟩ := polar_to_cart_row_some row (by rw [hdim row hrow]; exact hd)
    exact ⟨o, ho, by rw [hlen, hdim row hrow]⟩
  have hvalidC : (d = 1 ∨ d = 2 ∨ d = 3) →
      ∃ out, cart_to_polar arr = some out ∧ out.length = arr.length ∧
        ∀ row ∈ out, row.length = d := by
    intro hd
    apply mapRows_some_of_forall cart_to_polar_row (fun o => o.length = d)
    intro row hrow
    obtain ⟨o, ho, hlen⟩ := cart_to_polar_row_some row (by rw [hdim row hrow]; exact hd)
    exact ⟨o, ho, by rw [hlen, hdim row hrow]⟩
  have hvalidS : (d = 1 ∨ d = 2 ∨ d = 3) →
      ∃ out, sphere_pick_polar d draws = some out ∧ out.length = draws.length ∧
        ∀ row ∈ out, row.length = d := by
    rintro (rfl | rfl | rfl)
    · refine ⟨_, rfl, by simp, ?_⟩
      intro row hrow
      obtain ⟨t, _, rfl⟩ := List.mem_map.mp hrow
      rfl
    · refine ⟨_, rfl, by simp, ?_⟩
      intro row hrow
      obtain ⟨t, _, rfl⟩ := List.mem_map.mp hrow
      rfl
    · refine ⟨_, rfl, by simp, ?_⟩
      intro row hrow
      obtain ⟨t, _, rfl⟩ := List.mem_map.mp hrow
      rfl
  have hhead : ∃ row, row ∈ arr := by
    rcases arr with _ | ⟨row, rest⟩
    · exact absurd rfl hne
    · exact ⟨row, List.mem_cons_self row rest⟩
  obtain ⟨row0, hrow0⟩ := hhead
  refine ⟨⟨⟨?_, ?_⟩, ⟨?_, ?_⟩, ⟨?_, ?_⟩⟩, fun hd => ⟨hvalidP hd, hvalidC hd, hvalidS hd⟩⟩
  · intro hnone hd
    obtain ⟨out, hout, _⟩ := hvalidP hd
    rw [hout] at hnone
    exact Option.noConfusion hnone
  · intro hd
    exact (mapRows_eq_none_iff _ _).mpr
      ⟨row0, hrow0, polar_to_cart_row_none row0 (by rw [hdim row0 hrow0]; exact hd)⟩
  · intro hnone hd
    obtain ⟨out, hout, _⟩ := hvalidC hd
    rw [hout] at hnone
    exact Option.noConfusion hnone
  · intro hd
    exact (mapRows_eq_none_iff _ _).mpr
      ⟨row0, hrow0, cart_to_polar_row_none row0 (by rw [hdim row0 hrow0]; exact hd)⟩
  · intro hnone hd
    obtain ⟨out, hout, _⟩ := hvalidS hd
    rw [hout] at hnone
    exact Option.noConfusion hnone
  · intro hd
    push_neg at hd
    obtain ⟨h1, h2, h3⟩ := hd
    unfold sphere_pick_polar
    rw [if_neg h1, if_neg h2, if_neg h3]

/-- Witness for C10 at dimension 2, the concrete array [[1, 2]] and an
empty draw list. -/
theorem dimension_check_spec_witness :
    ([[(1 : ℝ), 2]] : Arr) ≠ [] ∧
    (∀ row ∈ ([[(1 : ℝ), 2]] : Arr), row.length = 2) ∧
    (((polar_to_cart [[(1 : ℝ), 2]] = none ↔ ¬((2 : ℕ) = 1 ∨ (2 : ℕ) = 2 ∨ (2 : ℕ) = 3)) ∧
      (cart_to_polar [[(1 : ℝ), 2]] = none ↔ ¬((2 : ℕ) = 1 ∨ (2 : ℕ) = 2 ∨ (2 : ℕ) = 3)) ∧
      (sphere_pick_polar 2 [] = none ↔ ¬((2 : ℕ) = 1 ∨ (2 : ℕ) = 2 ∨ (2 : ℕ) = 3))) ∧
     (((2 : ℕ) = 1 ∨ (2 : ℕ) = 2 ∨ (2 : ℕ) = 3) →
       (∃ out, polar_to_cart [[(1 : ℝ), 2]] = some out ∧
          out.length = ([[(1 : ℝ), 2]] : Arr).length ∧ ∀ row ∈ out, row.length = 2) ∧
       (∃ out, cart_to_polar [[(1 : ℝ), 2]] = some out ∧
          out.length = ([[(1 : ℝ), 2]] : Arr).length ∧ ∀ row ∈ out, row.length = 2) ∧
       (∃ out, sphere_pick_polar 2 ([] : List (ℕ × ℝ × ℝ)) = some out ∧
          out.length = ([] : List (ℕ × ℝ × ℝ)).length ∧ ∀ row ∈ out, row.length = 2))) :=
  ⟨by simp, by simp, dimension_check_spec 2 [[(1 : ℝ), 2]] [] (by simp) (by simp)⟩

lemma vector_mag_polar2 (r t : ℝ) (hr : 0 ≤ r) :
    vector_mag [r * Real.cos t, r * Real.sin t] = r := by
  have hsq : vector_mag_sq [r * Real.cos t, r * Real.sin t] = r ^ 2 := by
    simp only [vector_mag_sq, List.map_cons, List.map_nil, List.sum_cons,
      List.sum_nil]
    linear_combination (r ^ 2) * Real.sin_sq_add_cos_sq t
  rw [vector_mag, hsq, Real.sqrt_sq hr]

lemma atan2_polar (r t : ℝ) (hr : 0 < r) (ht : t ∈ Set.Ioc (-Real.pi) Real.pi) :
    atan2 (r * Real.sin t) (r * Real.cos t) = t := by
  unfold atan2
  have hz : (⟨r * Real.cos t, r * Real.sin t⟩ : ℂ) =
      (r : ℂ) * (Complex.cos t + Complex.sin t * Complex.I) := by
    apply Complex.ext <;>
      simp [Complex.cos_ofReal_re, Complex.sin_ofReal_re,
        Complex.cos_ofReal_im, Complex.sin_ofReal_im]
  rw [hz, Complex.arg_real_mul _ hr, Complex.arg_cos_add_sin_mul_I ht]

/-- C4: polar_to_cart and cart_to_polar are mutually inverse on the valid
range: a 2-d polar row (r, t) with r positive and t in (-pi, pi] comes
back unchanged through the composition, and on 1-d rows both conversions
act as the identity. -/
theorem polar_cart_roundtrip_spec (arr : Arr)
    (h : ∀ row ∈ arr, (∃ x, row = [x]) ∨
         (∃ r t, row = [r, t] ∧ 0 < r ∧ t ∈ Set.Ioc (-Real.pi) Real.pi)) :
    (polar_to_cart arr).bind cart_to_polar = some arr ∧
    (∀ x : ℝ, polar_to_cart_row [x] = some [x] ∧
       cart_to_polar_row [x] = some [x]) := by
  refine ⟨?_, fun x => ⟨rfl, rfl⟩⟩
  apply mapRows_roundtrip
  intro row hrow
  rcases h row hrow with ⟨x, rfl⟩ | ⟨r, t, rfl, hr, ht⟩
  · rfl
  · show (some [r * Real.cos t, r * Real.sin t]).bind cart_to_polar_row = _
    simp only [Option.some_bind, cart_to_polar_row]
    rw [vector_mag_polar2 r t hr.le, atan2_polar r t hr ht]

/-- Witness for C4 at the concrete polar array [[2, 0]]. -/
theorem polar_cart_roundtrip_spec_witness :
    (∀ row ∈ ([[(2 : ℝ), 0]] : Arr), (∃ x, row = [x]) ∨
       (∃ r t, row = [r, t] ∧ 0 < r ∧ t ∈ Set.Ioc (-Real.pi) Real.pi)) ∧
    ((polar_to_cart [[(2 : ℝ), 0]]).bind cart_to_polar = some [[(2 : ℝ), 0]] ∧
     (∀ x : ℝ, polar_to_cart_row [x] = some [x] ∧
        cart_to_polar_row [x] = some [x])) := by
  have h : ∀ row ∈ ([[(2 : ℝ), 0]] : Arr), (∃ x, row = [x]) ∨
      (∃ r t, row = [r, t] ∧ 0 < r ∧ t ∈ Set.Ioc (-Real.pi) Real.pi) := by
    intro row hrow
    rw [List.mem_singleton] at hrow
    subst hrow
    exact Or.inr ⟨2, 0, rfl, by norm_num,
      ⟨neg_neg_of_pos Real.pi_pos, Real.pi_pos.le⟩⟩
  exact ⟨h, polar_cart_roundtrip_spec [[(2 : ℝ), 0]] h⟩

lemma vector_mag_singleton (c : ℝ) : vector_mag [c] = |c| := by
  have hsq : vector_mag_sq [c] = c ^ 2 := by
    simp [vector_mag_sq]
  rw [vector_mag, hsq, Real.sqrt_sq_eq_abs]

lemma vector_mag_polar3_unit (i a : ℝ) :
    vector_mag [1 * Real.sin i * Real.cos a, 1 * Real.sin i * Real.sin a,
      1 * Real.cos i] = 1 := by
  have hsq : vector_mag_sq [1 * Real.sin i * Real.cos a,
      1 * Real.sin i * Real.sin a, 1 * Real.cos i] = 1 := by
    simp only [vector_mag_sq, List.map_cons, List.map_nil, List.sum_cons,
      List.sum_nil]
    linear_combination (Real.sin i ^ 2) * Real.sin_sq_add_cos_sq a +
      Real.sin_sq_add_cos_sq i
  rw [vector_mag, hsq, Real.sqrt_one]

set_option maxHeartbeats 1000000 in
/-- C7: for dimension 1, 2 or 3 and any outcome of the random draws (the
integer draw being 0 or 1), every cartesian vector returned by sphere_pick
has magnitude exactly 1, and every polar row returned by sphere_pick_polar
has radius component 1 for dimensions 2 and 3 and radius 1 or -1 for
dimension 1. -/
theorem sphere_pick_on_sphere_spec (d : ℕ) (draws : List (ℕ × ℝ × ℝ))
    (hd : d = 1 ∨ d = 2 ∨ d = 3) (hk : ∀ t ∈ draws, t.1 < 2) :
    (∃ rows, sphere_pick d draws = some rows ∧
       ∀ row ∈ rows, vector_mag row = 1) ∧
    (∃ prows, sphere_pick_polar d draws = some prows ∧ ∀ prow ∈ prows,
       (d = 1 → prow.getD 0 0 = 1 ∨ prow.getD 0 0 = -1) ∧
       ((d = 2 ∨ d = 3) → prow.getD 0 0 = 1)) := by
  rcases hd with rfl | rfl | rfl
  · have hin : ∀ row ∈ draws.map (fun t => [2 * (t.1 : ℝ) - 1]),
        ∃ o, polar_to_cart_row row = some o ∧ vector_mag o = 1 := by
      intro row hrow
      obtain ⟨t, ht, rfl⟩ := List.mem_map.mp hrow
      refine ⟨[2 * (t.1 : ℝ) - 1], rfl, ?_⟩
      rw [vector_mag_singleton]
      have hk2 : t.1 = 0 ∨ t.1 = 1 := by
        have := hk t ht
        omega
      rcases hk2 with h0 | h0 <;> rw [h0] <;> norm_num
    obtain ⟨out, hout, _, hP⟩ := mapRows_some_of_forall polar_to_cart_row
      (fun o => vector_mag o = 1) _ hin
    refine ⟨⟨out, hout, hP⟩, ⟨_, rfl, ?_⟩⟩
    intro prow hprow
    obtain ⟨t, ht, rfl⟩ := List.mem_map.mp hprow
    refine ⟨fun _ => ?_,
      fun h2 => by rcases h2 with h2 | h2 <;> exact absurd h2 (by norm_num)⟩
    have hk2 : t.1 = 0 ∨ t.1 = 1 := by
      have := hk t ht
      omega
    rcases hk2 with h0 | h0 <;> rw [List.getD_cons_zero, h0] <;> norm_num
  · have hin : ∀ row ∈ draws.map (fun t => ([1, t.2.1] : List ℝ)),
        ∃ o, polar_to_cart_row row = some o ∧ vector_mag o = 1 := by
      intro row hrow
      obtain ⟨t, ht, rfl⟩ := List.mem_map.mp hrow
      exact ⟨[1 * Real.cos t.2.1, 1 * Real.sin t.2.1], rfl,
        vector_mag_polar2 1 t.2.1 zero_le_one⟩
    obtain ⟨out, hout, _, hP⟩ := mapRows_some_of_forall polar_to_cart_row
      (fun o => vector_mag o = 1) _ hin
    refine ⟨⟨out, hout, hP⟩, ⟨_, rfl, ?_⟩⟩
    intro prow hprow
    obtain ⟨t, ht, rfl⟩ := List.mem_map.mp hprow
    exact ⟨fun h1 => absurd h1 (by norm_num), fun _ => List.getD_cons_zero⟩
  · have hin : ∀ row ∈ draws.map (fun t =>
        ([1, Real.arccos (2 * t.2.2 - 1), 2 * Real.pi * t.2.1] : List ℝ)),
        ∃ o, polar_to_cart_row row = some o ∧ vector_mag o = 1 := by
      intro row hrow
      obtain ⟨t, ht, rfl⟩ := List.mem_map.mp hrow
      exact ⟨_, rfl, vector_mag_polar3_unit _ _⟩
    obtain ⟨out, hout, _, hP⟩ := mapRows_some_of_forall polar_to_cart_row
      (fun o => vector_mag o = 1) _ hin
    have hpol : sphere_pick_polar 3 draws = some (draws.map (fun t =>
        ([1, Real.arccos (2 * t.2.2 - 1), 2 * Real.pi * t.2.1] : List ℝ))) := by
      norm_num [sphere_pick_polar]
    refine ⟨⟨out, ?_, hP⟩, ⟨_, hpol, ?_⟩⟩
    · show (sphere_pick_polar 3 draws).bind polar_to_cart = some out
      rw [hpol, Option.some_bind]
      exact hout
    · intro prow hprow
      obtain ⟨t, ht, rfl⟩ := List.mem_map.mp hprow
      exact ⟨fun h1 => absurd h1 (by norm_num), fun _ => List.getD_cons_zero⟩

/-- Witness for C7 at dimension 2 with one concrete draw. -/
theorem sphere_pick_on_sphere_spec_witness :
    ((2 : ℕ) = 1 ∨ (2 : ℕ) = 2 ∨ (2 : ℕ) = 3) ∧
    (∀ t ∈ ([((0 : ℕ), (0 : ℝ), (0 : ℝ))] : List (ℕ × ℝ × ℝ)), t.1 < 2) ∧
    ((∃ rows, sphere_pick 2 [((0 : ℕ), (0 : ℝ), (0 : ℝ))] = some rows ∧
        ∀ row ∈ rows, vector_mag row = 1) ∧
     (∃ prows, sphere_pick_polar 2 [((0 : ℕ), (0 : ℝ), (0 : ℝ))] = some prows ∧
        ∀ prow ∈ prows,
          ((2 : ℕ) = 1 → prow.getD 0 0 = 1 ∨ prow.getD 0 0 = -1) ∧
          (((2 : ℕ) = 2 ∨ (2 : ℕ) = 3) → prow.getD 0 0 = 1))) :=
  ⟨by norm_num, by norm_num,
   sphere_pick_on_sphere_spec 2 [((0 : ℕ), (0 : ℝ), (0 : ℝ))]
     (by norm_num) (by norm_num)⟩

/-- C8: for any outcome of the random draws with radius-squared draw in
[0, 1), every cartesian vector returned by disk_pick lies in the closed
unit disk, because every radius produced by disk_pick_polar is the square
root of that draw, hence between 0 and 1. -/
theorem disk_pick_in_disk_spec (draws : List (ℝ × ℝ))
    (h : ∀ t ∈ draws, 0 ≤ t.1 ∧ t.1 < 1) :
    (∃ rows, disk_pick draws = some rows ∧
       ∀ row ∈ rows, vector_mag row ≤ 1) ∧
    (∀ prow ∈ disk_pick_polar draws, 0 ≤ prow.getD 0 0 ∧ prow.getD 0 0 ≤ 1) := by
  constructor
  · have hin : ∀ row ∈ disk_pick_polar draws,
        ∃ o, polar_to_cart_row row = some o ∧ vector_mag o ≤ 1 := by
      intro row hrow
      obtain ⟨t, ht, rfl⟩ := List.mem_map.mp hrow
      refine ⟨[Real.sqrt t.1 * Real.cos t.2, Real.sqrt t.1 * Real.sin t.2], rfl, ?_⟩
      rw [vector_mag_polar2 _ _ (Real.sqrt_nonneg t.1)]
      exact Real.sqrt_le_one.mpr (h t ht).2.le
    obtain ⟨out, hout, _, hP⟩ := mapRows_some_of_forall polar_to_cart_row
      (fun o => vector_mag o ≤ 1) _ hin
    exact ⟨out, hout, hP⟩
  · intro prow hprow
    obtain ⟨t, ht, rfl⟩ := List.mem_map.mp hprow
    rw [List.getD_cons_zero]
    exact ⟨Real.sqrt_nonneg t.1, Real.sqrt_le_one.mpr (h t ht).2.le⟩

/-- Witness for C8 at one concrete draw with radius-squared 1/4. -/
theorem disk_pick_in_disk_spec_witness :
    (∀ t ∈ ([((1 : ℝ) / 4, (0 : ℝ))] : List (ℝ × ℝ)), 0 ≤ t.1 ∧ t.1 < 1) ∧
    ((∃ rows, disk_pick [((1 : ℝ) / 4, (0 : ℝ))] = some rows ∧
        ∀ row ∈ rows, vector_mag row ≤ 1) ∧
     (∀ prow ∈ disk_pick_polar [((1 : ℝ) / 4, (0 : ℝ))],
        0 ≤ prow.getD 0 0 ∧ prow.getD 0 0 ≤ 1)) :=
  ⟨by norm_num, disk_pick_in_disk_spec [((1 : ℝ) / 4, (0 : ℝ))] (by norm_num)⟩

/-- C2 counterexample: sphere_pick_polar invoked twice with identical
input arguments (dimension 2, one sample) returns different outputs for
two outcomes of the global numpy random stream, so its output is not a
function of the input arguments alone: the global random-generator state
is read (and advanced). -/
theorem sphere_pick_polar_reads_rng_state :
    sphere_pick_polar 2 [((0 : ℕ), (0 : ℝ), (0 : ℝ))] ≠
    sphere_pick_polar 2 [((0 : ℕ), (1 : ℝ), (0 : ℝ))] := by
  norm_num [sphere_pick_polar]

/-- C2 amended: every geometry function is deterministic given its
arguments together with the values consumed from the random stream: two
runs of the same function on equal arguments that read equal draws return
equal outputs; this holds in particular for vector_unit_nullrand,
sphere_pick_polar, sphere_pick, disk_pick_polar and disk_pick. -/
theorem geometry_deterministic_given_draws (v : Arr) (d : ℕ)
    (ds1 ds2 : List (ℕ × ℝ × ℝ)) (es1 es2 : List (ℝ × ℝ))
    (hd : ds1 = ds2) (he : es1 = es2) :
    vector_unit_nullrand v ds1 = vector_unit_nullrand v ds2 ∧
    sphere_pick_polar d ds1 = sphere_pick_polar d ds2 ∧
    sphere_pick d ds1 = sphere_pick d ds2 ∧
    disk_pick_polar es1 = disk_pick_polar es2 ∧
    disk_pick es1 = disk_pick es2 := by
  subst hd
  subst he
  exact ⟨rfl, rfl, rfl, rfl, rfl⟩

/-- Witness for the amended C2 at concrete draws. -/
theorem geometry_deterministic_given_draws_witness :
    ([((0 : ℕ), (0 : ℝ), (0 : ℝ))] : List (ℕ × ℝ × ℝ)) = [((0 : ℕ), (0 : ℝ), (0 : ℝ))] ∧
    ([((0 : ℝ), (0 : ℝ))] : List (ℝ × ℝ)) = [((0 : ℝ), (0 : ℝ))] ∧
    (vector_unit_nullrand [[(0 : ℝ), 0]] [((0 : ℕ), (0 : ℝ), (0 : ℝ))] =
       vector_unit_nullrand [[(0 : ℝ), 0]] [((0 : ℕ), (0 : ℝ), (0 : ℝ))] ∧
     sphere_pick_polar 2 [((0 : ℕ), (0 : ℝ), (0 : ℝ))] =
       sphere_pick_polar 2 [((0 : ℕ), (0 : ℝ), (0 : ℝ))] ∧
     sphere_pick 2 [((0 : ℕ), (0 : ℝ), (0 : ℝ))] =
       sphere_pick 2 [((0 : ℕ), (0 : ℝ), (0 : ℝ))] ∧
     disk_pick_polar [((0 : ℝ), (0 : ℝ))] = disk_pick_polar [((0 : ℝ), (0 : ℝ))] ∧
     disk_pick [((0 : ℝ), (0 : ℝ))] = disk_pick [((0 : ℝ), (0 : ℝ))]) :=
  ⟨rfl, rfl, geometry_deterministic_given_draws [[(0 : ℝ), 0]] 2 _ _ _ _ rfl rfl⟩

/-!
Facts about the cell grid of the neighbour-finding engine.
-/

lemma numCells_pos (L R : ℚ) : 0 < numCells L R :=
  lt_of_lt_of_le one_pos (le_max_left _ _)

lemma wrapQ_eq (L x : ℚ) (hL : L ≠ 0) : wrapQ L x = L * Int.fract (x / L) := by
  unfold wrapQ Int.fract
  field_simp

lemma wrapQ_nonneg (L x : ℚ) (hL : 0 < L) : 0 ≤ wrapQ L x := by
  rw [wrapQ_eq L x hL.ne.symm]
  exact mul_nonneg hL.le (Int.fract_nonneg _)

lemma wrapQ_lt (L x : ℚ) (hL : 0 < L) : wrapQ L x < L := by
  rw [wrapQ_eq L x hL.ne.symm]
  calc L * Int.fract (x / L) < L * 1 :=
        mul_lt_mul_of_pos_left (Int.fract_lt_one _) hL
    _ = L := mul_one L

lemma wrapQ_sub_congr (L x y : ℚ) :
    ∃ k : ℤ, wrapQ L y - wrapQ L x = (y - x) + (k : ℚ) * L := by
  refine ⟨⌊x / L⌋ - ⌊y / L⌋, ?_⟩
  unfold wrapQ
  push_cast
  ring

lemma minImage_congr (L d : ℚ) : ∃ j : ℤ, minImage L d = d + (j : ℚ) * L := by
  unfold minImage
  split_ifs
  · exact ⟨-1, by push_cast; ring⟩
  · exact ⟨1, by push_cast; ring⟩
  · exact ⟨0, by push_cast; ring⟩

lemma side_le (L R : ℚ) (hL : 0 < L) (hR : 0 < R) (hC : 2 ≤ numCells L R) :
    R ≤ L / (numCells L R : ℚ) := by
  have hfl : 0 ≤ ⌊L / R⌋ := Int.floor_nonneg.mpr (div_pos hL hR).le
  have ht : numCells L R = Int.toNat ⌊L / R⌋ := by
    unfold numCells at hC ⊢
    omega
  have hcast : ((numCells L R : ℤ) : ℚ) ≤ L / R := by
    rw [ht, Int.toNat_of_nonneg hfl]
    exact Int.floor_le _
  have hCq : (0 : ℚ) < (numCells L R : ℚ) := by
    exact_mod_cast numCells_pos L R
  rw [le_div_iff hCq]
  have h1 : (numCells L R : ℚ) * R ≤ L := by
    have := (le_div_iff hR).mp (by exact_mod_cast hcast)
    linarith
  linarith

lemma cellIdx_spec (L R x : ℚ) (hL : 0 < L) :
    0 ≤ ⌊wrapQ L x / (L / (numCells L R : ℚ))⌋ ∧
    ⌊wrapQ L x / (L / (numCells L R : ℚ))⌋ < (numCells L R : ℤ) ∧
    (cellIdx L R x : ℤ) = ⌊wrapQ L x / (L / (numCells L R : ℚ))⌋ := by
  have hCq : (0 : ℚ) < (numCells L R : ℚ) := by exact_mod_cast numCells_pos L R
  have hs : 0 < L / (numCells L R : ℚ) := div_pos hL hCq
  have h0 : 0 ≤ ⌊wrapQ L x / (L / (numCells L R : ℚ))⌋ :=
    Int.floor_nonneg.mpr (div_nonneg (wrapQ_nonneg L x hL) hs.le)
  have hlt : ⌊wrapQ L x / (L / (numCells L R : ℚ))⌋ < (numCells L R : ℤ) := by
    rw [Int.floor_lt]
    rw [div_lt_iff hs]
    push_cast
    calc wrapQ L x < L := wrapQ_lt L x hL
      _ = (numCells L R : ℚ) * (L / (numCells L R : ℚ)) := by field_simp
  refine ⟨h0, hlt, ?_⟩
  unfold cellIdx
  have hC1 := numCells_pos L R
  have hle : Int.toNat ⌊wrapQ L x / (L / (numCells L R : ℚ))⌋ ≤ numCells L R - 1 := by
    omega
  rw [min_eq_left hle]
  omega

lemma cellIdx_lt (L R x : ℚ) : cellIdx L R x < numCells L R := by
  unfold cellIdx
  have h1 := numCells_pos L R
  have h2 : numCells L R - 1 < numCells L R := Nat.sub_lt h1 one_pos
  exact lt_of_le_of_lt (min_le_right _ _) h2

lemma floor_adjacent (C : ℤ) (s u v m L : ℚ) (k : ℤ) (hC2 : 2 ≤ C) (hs : 0 < s)
    (hLs : L = (C : ℚ) * s)
    (hu0 : 0 ≤ u) (huL : u < L) (hv0 : 0 ≤ v) (hvL : v < L)
    (hm : |m| ≤ s) (hk : v - u = m + (k : ℚ) * L) :
    ∃ e : ℤ, (e = -1 ∨ e = 0 ∨ e = 1) ∧
      ⌊v / s⌋ = (⌊u / s⌋ + e) % C := by
  subst hLs
  have hC2q : (2 : ℚ) ≤ (C : ℚ) := by exact_mod_cast hC2
  have habs := abs_le.mp hm
  have hklt2 : (k : ℚ) < 2 := by
    by_contra hcon
    push_neg at hcon
    have h1 : (k : ℚ) * ((C : ℚ) * s) < (C : ℚ) * s + s := by linarith
    have h2 : 2 * ((C : ℚ) * s) ≤ (k : ℚ) * ((C : ℚ) * s) := by nlinarith
    have h3 : 2 * s ≤ (C : ℚ) * s := by nlinarith
    linarith
  have hkgt2 : (-2 : ℚ) < (k : ℚ) := by
    by_contra hcon
    push_neg at hcon
    have h1 : -((C : ℚ) * s) - s < (k : ℚ) * ((C : ℚ) * s) := by linarith
    have h2 : (k : ℚ) * ((C : ℚ) * s) ≤ -2 * ((C : ℚ) * s) := by nlinarith
    have h3 : 2 * s ≤ (C : ℚ) * s := by nlinarith
    linarith
  have hkZ : k = -1 ∨ k = 0 ∨ k = 1 := by
    have l1 : k < 2 := by exact_mod_cast hklt2
    have l2 : -2 < k := by exact_mod_cast hkgt2
    omega
  have ha0 : 0 ≤ ⌊u / s⌋ := Int.floor_nonneg.mpr (div_nonneg hu0 hs.le)
  have hb0 : 0 ≤ ⌊v / s⌋ := Int.floor_nonneg.mpr (div_nonneg hv0 hs.le)
  have haC : ⌊u / s⌋ < C := by
    rw [Int.floor_lt, div_lt_iff hs]
    push_cast
    exact huL
  have hbC : ⌊v / s⌋ < C := by
    rw [Int.floor_lt, div_lt_iff hs]
    push_cast
    exact hvL
  rcases hkZ with rfl | rfl | rfl
  · push_cast at hk
    have hvs : v < s := by linarith
    have hus : (C : ℚ) * s - s ≤ u := by linarith
    have hbeq : ⌊v / s⌋ = 0 := by
      have hlt : ⌊v / s⌋ < 1 := by
        rw [Int.floor_lt]
        push_cast
        rw [div_lt_one hs]
        exact hvs
      omega
    have haeq : ⌊u / s⌋ = C - 1 := by
      have hge : C - 1 ≤ ⌊u / s⌋ := by
        rw [Int.le_floor, le_div_iff hs]
        push_cast
        nlinarith
      omega
    refine ⟨1, Or.inr (Or.inr rfl), ?_⟩
    rw [hbeq, haeq, show C - 1 + 1 = C by ring, Int.emod_self]
  · push_cast at hk
    have hvm : v - u = m := by linarith
    have hble : ⌊v / s⌋ ≤ ⌊u / s⌋ + 1 := by
      have h1 : (v - u) / s ≤ 1 := (div_le_one hs).mpr (by linarith)
      rw [sub_div] at h1
      have h3 : ⌊v / s⌋ ≤ ⌊u / s + ((1 : ℤ) : ℚ)⌋ :=
        Int.floor_le_floor (by push_cast; linarith)
      rw [Int.floor_add_int] at h3
      omega
    have hale : ⌊u / s⌋ ≤ ⌊v / s⌋ + 1 := by
      have h1 : (u - v) / s ≤ 1 := (div_le_one hs).mpr (by linarith)
      rw [sub_div] at h1
      have h3 : ⌊u / s⌋ ≤ ⌊v / s + ((1 : ℤ) : ℚ)⌋ :=
        Int.floor_le_floor (by push_cast; linarith)
      rw [Int.floor_add_int] at h3
      omega
    refine ⟨⌊v / s⌋ - ⌊u / s⌋, by omega, ?_⟩
    rw [show ⌊u / s⌋ + (⌊v / s⌋ - ⌊u / s⌋) = ⌊v / s⌋ by ring]
    exact (Int.emod_eq_of_lt hb0 hbC).symm
  · push_cast at hk
    have hus : u < s := by linarith
    have hvge : (C : ℚ) * s - s ≤ v := by linarith
    have haeq : ⌊u / s⌋ = 0 := by
      have hlt : ⌊u / s⌋ < 1 := by
        rw [Int.floor_lt]
        push_cast
        rw [div_lt_one hs]
        exact hus
      omega
    have hbeq : ⌊v / s⌋ = C - 1 := by
      have hge : C - 1 ≤ ⌊v / s⌋ := by
        rw [Int.le_floor, le_div_iff hs]
        push_cast
        nlinarith
      omega
    refine ⟨-1, Or.inl rfl, ?_⟩
    rw [hbeq, haeq, show (0 : ℤ) + -1 = -1 by ring,
      show (-1 : ℤ) = C - 1 + C * -1 by ring, Int.add_mul_emod_self_left]
    exact (Int.emod_eq_of_lt (by omega) (by omega)).symm

lemma cellIdx_adjacent (L R x y : ℚ) (hL : 0 < L) (hR : 0 < R)
    (hm : |minImage L (y - x)| ≤ R) :
    ∃ e : ℤ, (e = -1 ∨ e = 0 ∨ e = 1) ∧
      cellIdx L R y = wrapCell (numCells L R) ((cellIdx L R x : ℤ) + e) := by
  obtain ⟨hax0, haxC, haxE⟩ := cellIdx_spec L R x hL
  obtain ⟨hay0, hayC, hayE⟩ := cellIdx_spec L R y hL
  by_cases hC : numCells L R = 1
  · refine ⟨0, Or.inr (Or.inl rfl), ?_⟩
    have h1 := cellIdx_lt L R x
    have h2 := cellIdx_lt L R y
    unfold wrapCell
    rw [hC] at h1 h2 ⊢
    omega
  · have hC2 : 2 ≤ numCells L R := by
      have := numCells_pos L R
      omega
    have hCq : (0 : ℚ) < (numCells L R : ℚ) := by exact_mod_cast numCells_pos L R
    have hs : 0 < L / (numCells L R : ℚ) := div_pos hL hCq
    have hRs := side_le L R hL hR hC2
    obtain ⟨k1, hk1⟩ := wrapQ_sub_congr L x y
    obtain ⟨j, hj⟩ := minImage_congr L (y - x)
    obtain ⟨e, he, heq⟩ := floor_adjacent (numCells L R : ℤ)
      (L / (numCells L R : ℚ)) (wrapQ L x) (wrapQ L y) (minImage L (y - x)) L
      (k1 - j) (by exact_mod_cast hC2) hs
      (by push_cast; field_simp)
      (wrapQ_nonneg L x hL) (wrapQ_lt L x hL)
      (wrapQ_nonneg L y hL) (wrapQ_lt L y hL)
      (le_trans hm hRs)
      (by push_cast; linear_combination hk1 - hj)
    refine ⟨e, he, ?_⟩
    unfold wrapCell
    rw [haxE, ← heq]
    omega

lemma mem_blockCells (C : ℕ) (c c2 : ℕ × ℕ) (e1 e2 : ℤ)
    (he1 : e1 = -1 ∨ e1 = 0 ∨ e1 = 1) (he2 : e2 = -1 ∨ e2 = 0 ∨ e2 = 1)
    (h1 : c2.1 = wrapCell C ((c.1 : ℤ) + e1))
    (h2 : c2.2 = wrapCell C ((c.2 : ℤ) + e2)) :
    c2 ∈ blockCells C c := by
  unfold blockCells
  rw [List.mem_dedup, List.mem_map]
  refine ⟨(e1, e2), ?_, ?_⟩
  · unfold cellOffsets
    rcases he1 with rfl | rfl | rfl <;> rcases he2 with rfl | rfl | rfl <;> simp
  · exact (Prod.ext_iff.mpr ⟨h1, h2⟩).symm

lemma cellOf_mem_blockCells (L R : ℚ) (hL : 0 < L) (hR : 0 < R) (p q : ℚ × ℚ)
    (h : sqDist L p q ≤ R ^ 2) :
    cellOf L R q ∈ blockCells (numCells L R) (cellOf L R p) := by
  have hx : |minImage L (q.1 - p.1)| ≤ R := by
    have h2 := sq_nonneg (minImage L (q.2 - p.2))
    unfold sqDist at h
    rw [abs_le]
    constructor <;> nlinarith
  have hy : |minImage L (q.2 - p.2)| ≤ R := by
    have h2 := sq_nonneg (minImage L (q.1 - p.1))
    unfold sqDist at h
    rw [abs_le]
    constructor <;> nlinarith
  obtain ⟨e1, he1, hc1⟩ := cellIdx_adjacent L R p.1 q.1 hL hR hx
  obtain ⟨e2, he2, hc2⟩ := cellIdx_adjacent L R p.2 q.2 hL hR hy
  exact mem_blockCells (numCells L R) (cellOf L R p) (cellOf L R q) e1 e2
    he1 he2 hc1 hc2

lemma mem_direct_entry (r : List (ℚ × ℚ)) (L R : ℚ) (i j : ℕ) :
    j ∈ (List.range r.length).filter (fun j =>
      decide (j ≠ i ∧ sqDist L (r.getD i (0, 0)) (r.getD j (0, 0)) ≤ R ^ 2)) ↔
    j < r.length ∧ j ≠ i ∧
      sqDist L (r.getD i (0, 0)) (r.getD j (0, 0)) ≤ R ^ 2 := by
  simp [List.mem_filter, List.mem_range]

lemma mem_cellList_iff (r : List (ℚ × ℚ)) (L R : ℚ) (c : ℕ × ℕ) (j : ℕ) :
    j ∈ cellList r L R c ↔
      j < r.length ∧ cellOf L R (r.getD j (0, 0)) = c := by
  unfold cellList
  simp [List.mem_filter, List.mem_range]

lemma mem_cl_entry (r : List (ℚ × ℚ)) (L R : ℚ) (i j : ℕ) :
    j ∈ (blockCells (numCells L R) (cellOf L R (r.getD i (0, 0)))).flatMap (fun c =>
      (cellList r L R c).filter (fun j =>
        decide (j ≠ i ∧ sqDist L (r.getD i (0, 0)) (r.getD j (0, 0)) ≤ R ^ 2))) ↔
    j < r.length ∧
    cellOf L R (r.getD j (0, 0)) ∈
      blockCells (numCells L R) (cellOf L R (r.getD i (0, 0))) ∧
    j ≠ i ∧ sqDist L (r.getD i (0, 0)) (r.getD j (0, 0)) ≤ R ^ 2 := by
  rw [List.mem_flatMap]
  constructor
  · rintro ⟨c, hcmem, hj⟩
    rw [List.mem_filter] at hj
    obtain ⟨hjc, hcond⟩ := hj
    rw [mem_cellList_iff] at hjc
    rw [decide_eq_true_eq] at hcond
    exact ⟨hjc.1, hjc.2 ▸ hcmem, hcond.1, hcond.2⟩
  · rintro ⟨hjn, hblock, hne, hdist⟩
    refine ⟨cellOf L R (r.getD j (0, 0)), hblock, ?_⟩
    rw [List.mem_filter]
    refine ⟨(mem_cellList_iff r L R _ j).mpr ⟨hjn, rfl⟩, ?_⟩
    rw [decide_eq_true_eq]
    exact ⟨hne, hdist⟩

lemma nodup_cl_entry (r : List (ℚ × ℚ)) (L R : ℚ) (i : ℕ) :
    ((blockCells (numCells L R) (cellOf L R (r.getD i (0, 0)))).flatMap (fun c =>
      (cellList r L R c).filter (fun j =>
        decide (j ≠ i ∧
          sqDist L (r.getD i (0, 0)) (r.getD j (0, 0)) ≤ R ^ 2)))).Nodup := by
  rw [List.nodup_flatMap]
  constructor
  · intro c hc
    exact List.Nodup.filter _ (List.Nodup.filter _ (List.nodup_range _))
  · have hnd : (blockCells (numCells L R) (cellOf L R (r.getD i (0, 0)))).Nodup :=
      List.nodup_dedup _
    refine List.Pairwise.imp ?_ hnd
    intro c1 c2 hne
    intro j hj1 hj2
    rw [List.mem_filter] at hj1 hj2
    have h1 := (mem_cellList_iff r L R c1 j).mp hj1.1
    have h2 := (mem_cellList_iff r L R c2 j).mp hj2.1
    exact hne (h1.2 ▸ h2.2)

lemma insertionSort_eq_of_perm (l1 l2 : List ℕ) (h : l1.Perm l2) :
    List.insertionSort (fun a b => a ≤ b) l1 =
    List.insertionSort (fun a b => a ≤ b) l2 := by
  have hs1 := List.sorted_insertionSort (fun a b : ℕ => a ≤ b) l1
  have hs2 := List.sorted_insertionSort (fun a b : ℕ => a ≤ b) l2
  have hp : (List.insertionSort (fun a b : ℕ => a ≤ b) l1).Perm
      (List.insertionSort (fun a b : ℕ => a ≤ b) l2) :=
    (List.perm_insertionSort _ l1).trans
      (h.trans (List.perm_insertionSort _ l2).symm)
  exact List.eq_of_perm_of_sorted hp hs1 hs2

/-- C1: for every point set and positive L and R, the three
neighbour-finding strategies agree: sorting each particle collection, the
direct all-pairs scan and the unchecked cell list produce equal per-particle
lists, and the checked cell list runs its validations successfully and
returns the same neighbour relation as the unchecked one. -/
theorem interacts_consistency (r : List (ℚ × ℚ)) (L R : ℚ)
    (hL : 0 < L) (hR : 0 < R) :
    sortEach (interacts_direct r L R) = sortEach (interacts_cl_nochecks r L R) ∧
    interacts_cl_checks r L R = some (interacts_cl_nochecks r L R) := by
  constructor
  · unfold sortEach interacts_direct interacts_cl_nochecks
    rw [List.map_map, List.map_map]
    apply List.map_congr_left
    intro i hi
    simp only [Function.comp_apply]
    apply insertionSort_eq_of_perm
    have hnd1 : ((List.range r.length).filter (fun j =>
        decide (j ≠ i ∧
          sqDist L (r.getD i (0, 0)) (r.getD j (0, 0)) ≤ R ^ 2))).Nodup :=
      List.Nodup.filter _ (List.nodup_range _)
    have hnd2 := nodup_cl_entry r L R i
    apply (List.perm_ext_iff_of_nodup hnd1 hnd2).mpr
    intro j
    rw [mem_direct_entry, mem_cl_entry]
    constructor
    · rintro ⟨hjn, hne, hdist⟩
      exact ⟨hjn, cellOf_mem_blockCells L R hL hR _ _ hdist, hne, hdist⟩
    · rintro ⟨hjn, _, hne, hdist⟩
      exact ⟨hjn, hne, hdist⟩
  · unfold interacts_cl_checks
    have hcond : 0 < L ∧ 0 < R ∧ ∀ p ∈ r,
        (cellOf L R p).1 < numCells L R ∧ (cellOf L R p).2 < numCells L R :=
      ⟨hL, hR, fun p _ => ⟨cellIdx_lt L R p.1, cellIdx_lt L R p.2⟩⟩
    rw [if_pos hcond]

/-- Witness for C1 at the concrete point set [(0, 0), (1, 0)], L = 10,
R = 3. -/
theorem interacts_consistency_witness :
    (0 : ℚ) < 10 ∧ (0 : ℚ) < 3 ∧
    (sortEach (interacts_direct [((0 : ℚ), (0 : ℚ)), ((1 : ℚ), (0 : ℚ))] 10 3) =
       sortEach (interacts_cl_nochecks [((0 : ℚ), (0 : ℚ)), ((1 : ℚ), (0 : ℚ))] 10 3) ∧
     interacts_cl_checks [((0 : ℚ), (0 : ℚ)), ((1 : ℚ), (0 : ℚ))] 10 3 =
       some (interacts_cl_nochecks [((0 : ℚ), (0 : ℚ)), ((1 : ℚ), (0 : ℚ))] 10 3)) :=
  ⟨by norm_num, by norm_num,
   interacts_consistency [((0 : ℚ), (0 : ℚ)), ((1 : ℚ), (0 : ℚ))] 10 3
     (by norm_num) (by norm_num)⟩
